import Mathlib

/-!
Shallow embedding of `src/smurfs/timeseries/timerseries.py`.

Numbers are modelled as rationals.  The external collaborators of the
module — `scipy.optimize.curve_fit`, `astropy.stats.LombScargle` and
`np.sqrt` — are passed in as oracle parameters; everything that the
module itself computes is translated directly.  Python slice and index
semantics are modelled exactly by `pySlice` and `pyGet`.  The
configuration constants `similarFrequenciesCount` and
`similarityStdDev` are imported by the source from `smurfs.support`
(a module that is not part of the sources here) and are therefore
taken as parameters.
-/

unseal Rat.mul Rat.inv Rat.add Rat.sub Rat.ofScientific

/-- Python `max(y)` over rationals; `none` on an empty list. -/
def listMax : List ℚ → Option ℚ
  | [] => none
  | x :: xs => some (xs.foldl max x)

/-- `np.mean`; the mean of an empty list is 0 here (numpy would give nan,
a case no claim exercises). -/
def listMean (xs : List ℚ) : ℚ := xs.sum / (xs.length : ℚ)

/-- `np.diff`, and equally the expression `time[1:] - time[:-1]` from
`findMostCommonDiff` (source lines 67). -/
def diffsOf (time : List ℚ) : List ℚ := List.zipWith (fun a b => a - b) time.tail time

/-- Python slice index normalization: a negative index counts from the
end, and the result is clamped to the interval from 0 to the length. -/
def pyNormIdx (len : ℕ) (i : ℤ) : ℕ :=
  if i < 0 then (max ((len : ℤ) + i) 0).toNat else min i.toNat len

/-- Python slice `xs[a:b]` with step 1. -/
def pySlice (xs : List ℚ) (a b : ℤ) : List ℚ :=
  (xs.take (pyNormIdx xs.length b)).drop (pyNormIdx xs.length a)

/-- Python indexing `xs[i]`, a negative index counting from the end.
Out-of-range reads default to 0; every use below is in range. -/
def pyGet (xs : List ℚ) (i : ℤ) : ℚ :=
  if 0 ≤ i then xs.getD i.toNat 0 else xs.getD ((xs.length : ℤ) + i).toNat 0

/-- Python `int(q)`: truncation toward zero. -/
def intTrunc (q : ℚ) : ℤ := Int.tdiv q.num (q.den : ℤ)

/-- Modelled from the spec: claim C4 reads the conversion of the window
size to an index count as `round(windowSize / meanFrequencyStep)`; this
is that rounding (half up), for comparison with `intTrunc`, which is
what the source applies. -/
def pyRound (q : ℚ) : ℤ := Int.fdiv (q + 1 / 2).num ((q + 1 / 2).den : ℤ)

/-- The float64 value of `np.pi` as an exact rational. -/
def piQ : ℚ := 884279719003555 / 281474976710656

/-- Helper for `np.unique(..., return_counts=True)` followed by
`np.argmax(counts)` (source lines 68 to 69): among the candidate values
`vs`, pick the one occurring most often in `ds`; on a tie pick the
smallest (numpy sorts the unique values ascending and argmax returns
the first maximum). -/
def argmaxCount (ds : List ℚ) : List ℚ → Option (ℚ × ℕ)
  | [] => none
  | v :: vs =>
    match argmaxCount ds vs with
    | none => some (v, ds.count v)
    | some (bv, bc) =>
      if bc < ds.count v ∨ (ds.count v = bc ∧ v < bv) then some (v, ds.count v)
      else some (bv, bc)

/-- `findMostCommonDiff` (source lines 61 to 70): the most frequent
consecutive time difference; `none` models the crash of `np.argmax` on
an empty difference array (fewer than two time samples). -/
def findMostCommonDiff (time : List ℚ) : Option ℚ :=
  (argmaxCount (diffsOf time) (diffsOf time).dedup).map (fun p => p.1)

/-- `nyquistFrequency` (source lines 51 to 58). -/
def nyquistFrequency (time : List ℚ) : Option ℚ :=
  (findMostCommonDiff time).map (fun d => 1 / (2 * d))

/-- `findMaxPowerFrequency` (source lines 73 to 77): the maximum power
together with the first frequency whose power is within 1e-4 of it. -/
def findMaxPowerFrequency (ampSpectrum : List ℚ × List ℚ) : Option (ℚ × ℚ) :=
  match listMax ampSpectrum.2 with
  | none => none
  | some maxY =>
    match (List.zip ampSpectrum.1 ampSpectrum.2).find?
        (fun q => decide (|q.2 - maxY| < 1 / 10000)) with
    | none => none
    | some q => some (maxY, q.1)

/-- A fit parameter triple `[amp, freq, phase]` as passed to and
returned by `curve_fit(sin, ...)`. -/
structure FitTriple where
  amp : ℚ
  freq : ℚ
  phase : ℚ
deriving DecidableEq

/-- Source lines 103 to 106: when the fitted amplitude or frequency is
negative, replace both by their absolute values and move the phase by
pi — minus pi when the phase exceeds pi, plus pi otherwise. -/
def signCorrect (p : FitTriple) : FitTriple :=
  if p.amp < 0 ∨ p.freq < 0 then
    { amp := |p.amp|, freq := |p.freq|,
      phase := p.phase + (if piQ < p.phase then -piQ else piQ) }
  else p

/-- The while loop of `findAndRemoveMaxFrequency` (source lines 95 to
109).  `fitOracle` models `scipy.optimize.curve_fit` as a map from the
seed `p0` to the optimizer output, `none` modelling its RuntimeError.
The source loop is unbounded, so fuel makes the recursion structural;
the theorems below show that any fuel of at least 2 is enough. -/
def fitLoop (fitOracle : FitTriple → Option FitTriple) :
    ℕ → FitTriple → FitTriple → Option FitTriple
  | 0, _, _ => none
  | fuel + 1, popt, arr =>
    if popt.amp < 0 ∨ popt.freq < 0 then
      match fitOracle arr with
      | none => none
      | some p =>
        let p2 := signCorrect p
        fitLoop fitOracle fuel p2 p2
    else some popt

/-- `findAndRemoveMaxFrequency` (source lines 80 to 111), restricted to
the fit triple it returns.  The residual light curve subtracts a real
sinusoid at the corrected parameters and is outside the rational model;
the claims speak only about the fit triple. -/
def findAndRemoveMaxFrequency (fitOracle : FitTriple → Option FitTriple) (fuel : ℕ)
    (ampSpectrum : List ℚ × List ℚ) : Option FitTriple :=
  match findMaxPowerFrequency ampSpectrum with
  | none => none
  | some (maxY, maxX) => fitLoop fitOracle fuel ⟨-1, -1, -1⟩ ⟨maxY, maxX, 0⟩

/-- Modelled from the spec: the sign-correction loop as section 4.2 of
the spec and claim C1 describe it — while the fitted amplitude or
frequency is negative, correct the triple and fit again with the
corrected triple as the new seed, returning the first optimizer output
that is non-negative in both components. -/
def specReFitLoop (fitOracle : FitTriple → Option FitTriple) :
    ℕ → FitTriple → Option FitTriple
  | 0, _ => none
  | fuel + 1, seed =>
    match fitOracle seed with
    | none => none
    | some p =>
      if p.amp < 0 ∨ p.freq < 0 then specReFitLoop fitOracle fuel (signCorrect p)
      else some p

/-- `checkMinima` (source lines 164 to 165). -/
def checkMinima (yData : List ℚ) (counter : ℤ) : Bool :=
  decide (pyGet yData counter < pyGet yData (counter + 1)) &&
  decide (pyGet yData counter < pyGet yData (counter - 1))

/-- The index of the first value within `tol` of `m`, modelling
`np.where(abs(yData - max(yData)) < tol)[0][0]` (source line 139). -/
def findIdxNear (m tol : ℚ) : List ℚ → Option ℕ
  | [] => none
  | v :: vs => if |v - m| < tol then some 0 else (findIdxNear m tol vs).map (· + 1)

/-- Source lines 147 to 150: the update of the `lowerMinima` register at
one scan step, `a` being the current `negCounter` value. -/
def lowerUpdate (yData : List ℚ) (a l : ℤ) : ℤ :=
  if a - 1 < 0 then a else if checkMinima yData a then a else l

/-- Source lines 152 to 155: the update of the `upperMinima` register at
one scan step, `a` being the current `posCounter` value. -/
def upperUpdate (yData : List ℚ) (a u : ℤ) : ℤ :=
  if (yData.length : ℤ) ≤ a + 1 then a else if checkMinima yData a then a else u

/-- The while loop of `findNextMinimas` (source lines 144 to 159),
with the running counter and the two minima registers as state. -/
def findNextMinimasGo (yData : List ℚ) (index : ℕ) :
    ℕ → ℕ → ℤ → ℤ → Option (ℤ × ℤ)
  | 0, _, _, _ => none
  | fuel + 1, counter, lowerMinima, upperMinima =>
    let lower := lowerUpdate yData ((index : ℤ) - (counter : ℤ)) lowerMinima
    let upper := upperUpdate yData ((index : ℤ) + (counter : ℤ)) upperMinima
    if lower ≠ -1 ∧ upper ≠ -1 then some (lower, upper)
    else findNextMinimasGo yData index fuel (counter + 1) lower upper

/-- `findNextMinimas` (source lines 137 to 161).  The source loop is
unbounded; the fuel `2 * len + 4` is proved sufficient below for every
non-empty input. -/
def findNextMinimas (yData : List ℚ) : Option (ℤ × ℤ) :=
  match listMax yData with
  | none => none
  | some m =>
    match findIdxNear m (1 / 1000000) yData with
    | none => none
    | some index => findNextMinimasGo yData index (2 * yData.length + 4) 1 (-1) (-1)

/-- The first power value within 1e-6 of the maximum, modelling
`y[abs(y - max(y)) < 10 ** -6][0]` (source line 132). -/
def firstNearMax (y : List ℚ) : Option ℚ :=
  match listMax y with
  | none => none
  | some m => y.find? (fun v => decide (|v - m| < 1 / 1000000))

/-- `computeSignalToNoise` (source lines 114 to 134). -/
def computeSignalToNoise (ampSpectrum : List ℚ × List ℚ) (windowSize : ℚ) : Option ℚ :=
  let y := ampSpectrum.2
  let x := ampSpectrum.1
  match findNextMinimas y with
  | none => none
  | some (lowerMinima, upperMinima) =>
    let singleStep := listMean (diffsOf x)
    let lengthHalf : ℤ := intTrunc (windowSize / singleStep)
    let data := pySlice y (lowerMinima - lengthHalf) lowerMinima ++
      pySlice y upperMinima (upperMinima + lengthHalf)
    let meanValue := listMean data
    match firstNearMax y with
    | none => none
    | some maxVal => some (maxVal / meanValue)

/-- One record of the frequency list: `(frequency, snr, amplitude,
phase)` exactly as appended at source line 236. -/
abbrev Rec4 := ℚ × ℚ × ℚ × ℚ

/-- Row-major flattening of the record tuples: `np.array(lst)` applied
to a list of 4-tuples gives a 2-D array, and `ndarray.std()` takes the
standard deviation of all of its entries. -/
def flattenRecs (rs : List Rec4) : List ℚ :=
  (rs.map (fun r => [r.1, r.2.1, r.2.2.1, r.2.2.2])).flatten

/-- Population variance: the mean of the squared deviations from the
mean, which is the square of `np.std`. -/
def listVar (xs : List ℚ) : ℚ :=
  listMean (xs.map (fun v => (v - listMean xs) ^ 2))

/-- The comparison `std(xs) < c` expressed without square roots: the
non-negative standard deviation is below `c` exactly when `c` is
positive and the variance is below `c ^ 2`. -/
def stdBelow (xs : List ℚ) (c : ℚ) : Bool :=
  decide (0 < c ∧ listVar xs < c ^ 2)

/-- `cutoffCriterion` (source lines 172 to 184): `true` means continue,
`false` means stop the analysis.  `np.array(frequencyList[-n:])` is a
2-D array of tuples, so its `std()` runs over the flattened tuples.
The branch for a zero count mirrors the Python slice `lst[-0:]`, which
is the whole list. -/
def cutoffCriterion (similarFrequenciesCount : ℕ) (similarityStdDev : ℚ)
    (frequencyList : List Rec4) : Bool :=
  if frequencyList.length < similarFrequenciesCount then true
  else
    let lastFrequencies :=
      if similarFrequenciesCount = 0 then frequencyList
      else frequencyList.drop (frequencyList.length - similarFrequenciesCount)
    if stdBelow (flattenRecs lastFrequencies) similarityStdDev then false else true

/-- The while loop of `recursiveFrequencyFinder` (source lines 234 to
254).  `snrSeq k` models the value `computeSignalToNoise(amp, windowSize)`
and `fitSeq k` the fit of round `k` on the current residual data; the
loop state is the current snr value, the previous round fit (`none` on
the first round, where the bare except swallows the NameError of the
append), the list built so far, and the number of body executions.
Fuel makes the recursion structural; a run that exhausts its fuel
returns what it has, like an interrupted run. -/
def recursiveFrequencyFinderGo (snrSeq : ℕ → ℚ) (fitSeq : ℕ → FitTriple)
    (snrCriterion : ℚ) (similarFrequenciesCount : ℕ) (similarityStdDev : ℚ) :
    ℕ → ℚ → Option FitTriple → List Rec4 → ℕ → List Rec4 × ℕ
  | 0, _, _, frequencyList, rounds => (frequencyList, rounds)
  | fuel + 1, snr, prevFit, frequencyList, rounds =>
    if snrCriterion < snr then
      let frequencyList2 :=
        match prevFit with
        | some fit => frequencyList ++ [(fit.freq, snr, fit.amp, fit.phase)]
        | none => frequencyList
      let snr2 := snrSeq rounds
      let fit2 := fitSeq rounds
      if cutoffCriterion similarFrequenciesCount similarityStdDev frequencyList2 then
        recursiveFrequencyFinderGo snrSeq fitSeq snrCriterion similarFrequenciesCount
          similarityStdDev fuel snr2 (some fit2) frequencyList2 (rounds + 1)
      else (frequencyList2, rounds + 1)
    else (frequencyList, rounds)

/-- `recursiveFrequencyFinder` (source lines 207 to 267), restricted to
the frequency record it builds and the number of rounds it executes;
the snr state is seeded with the sentinel 100 (source line 228). -/
def recursiveFrequencyFinder (snrSeq : ℕ → ℚ) (fitSeq : ℕ → FitTriple)
    (snrCriterion : ℚ) (similarFrequenciesCount : ℕ) (similarityStdDev : ℚ)
    (fuel : ℕ) : List Rec4 × ℕ :=
  recursiveFrequencyFinderGo snrSeq fitSeq snrCriterion similarFrequenciesCount
    similarityStdDev fuel 100 none [] 0

/-- The time-array loop of `combineDatasets` (source lines 277 to 281):
`np.hstack` folded over the list, seeded through the UnboundLocalError
handler. -/
def hstackFold (tList : List (List ℚ)) : List ℚ := tList.foldl (fun t i => t ++ i) []

/-- The intensity loop of `combineDatasets` (source lines 283 to 287):
`np.row_stack` folded over the list, each element entering as one row. -/
def rowStackFold (iList : List (List ℚ)) : List (List ℚ) :=
  iList.foldl (fun m j => m ++ [j]) []

/-- `combineDatasets` (source lines 270 to 289); `none` models the
ValueError raised when one of the input lists is empty. -/
def combineDatasets (fList tList iList : List (List ℚ)) :
    Option (List ℚ × List ℚ × List (List ℚ)) :=
  if fList = [] ∨ tList = [] ∨ iList = [] then none
  else some (fList.headI, hstackFold tList, rowStackFold iList)

/-- `calculateAmplitudeSpectrum` (source lines 11 to 48).
`autopower lo hi` models the periodogram call
`LombScargle(time, flux, normalization=psd).autopower(minimum_frequency=lo,
maximum_frequency=hi, samples_per_peak=100)` as a list of (frequency,
raw power) pairs, and `npSqrt` models `np.sqrt` on rationals.  `none`
models the ValueError when the lower boundary exceeds the upper one and
the crash of `findMostCommonDiff` on fewer than two time samples. -/
def calculateAmplitudeSpectrum (autopower : ℚ → ℚ → List (ℚ × ℚ)) (npSqrt : ℚ → ℚ)
    (time : List ℚ) (frequencyBoundary : ℚ × ℚ) : Option (List (ℚ × ℚ)) :=
  if frequencyBoundary.2 < frequencyBoundary.1 then none
  else
    match nyquistFrequency time with
    | none => none
    | some nFrequency =>
      let maxFrequency := if nFrequency < frequencyBoundary.2 then nFrequency
        else frequencyBoundary.2
      let fp := autopower frequencyBoundary.1 maxFrequency
      let fp := fp.map (fun q => (q.1, npSqrt (4 / (time.length : ℚ)) * npSqrt q.2))
      let fp := fp.drop 1
      some (fp.filter (fun q => decide (q.1 < frequencyBoundary.2)))

/-- Concrete curve-fit oracle for the claim C1 witness and
counterexample: on the initial seed it reports a negative amplitude,
on any other seed a fully positive triple. -/
def c1Oracle : FitTriple → Option FitTriple :=
  fun t => if t = ⟨3, 2, 0⟩ then some ⟨-1, 2, 0⟩ else some ⟨5, 7, 0⟩

/-- Concrete frequency grid for the claims C4 and C10. -/
def c4x : List ℚ := [0, 1, 2, 3, 4, 5, 6, 7, 8]

/-- Concrete power values for the claims C4 and C10: maximum 9 at index
3, adjacent local minima at indices 2 and 4. -/
def c4y : List ℚ := [5, 4, 1, 9, 2, 6, 7, 8, 17 / 2]

/-- Concrete frequency grid for the claim C10 witness. -/
def c10x : List ℚ := [0, 1, 2, 3, 4, 5]

/-- Concrete power values for the claim C10 witness: the minima scan on
this array returns the negative lower index -3. -/
def c10y : List ℚ := [0, 5, 4, 3, 2, 1]

/-- Concrete record for claim C3: the last three frequencies are 5,
5.001 and 5.0005 while the snr components differ strongly. -/
def c3Record : List Rec4 := [(5, 10, 1, 0), (5001 / 1000, 20, 1, 0), (50005 / 10000, 30, 1, 0)]

/-- Constant snr stream for the extraction-loop witnesses. -/
def snrSeqW : ℕ → ℚ := fun _ => 10

/-- Constant fit stream for the extraction-loop witnesses. -/
def fitSeqW : ℕ → FitTriple := fun _ => ⟨1, 2, 0⟩

/-- Snr stream for the claim C2 counterexample: the very first computed
snr is already at 3, below the criterion 5. -/
def snrSeqCex : ℕ → ℚ := fun _ => 3

/-- Fit stream for the claim C2 counterexample. -/
def fitSeqCex : ℕ → FitTriple := fun _ => ⟨7, 9, 0⟩

/-- Concrete periodogram oracle for the claim C6 witness. -/
def c6autopower : ℚ → ℚ → List (ℚ × ℚ) := fun lo hi => [(lo, 1), ((lo + hi) / 2, 2)]

/-! ### Supporting lemmas -/

theorem foldlMax_mem (xs : List ℚ) : ∀ x : ℚ, xs.foldl max x = x ∨ xs.foldl max x ∈ xs := by
  induction xs with
  | nil => intro x; left; rfl
  | cons y ys ih =>
    intro x
    rcases ih (max x y) with h | h
    · rcases max_choice x y with hm | hm
      · left; rw [List.foldl_cons, h, hm]
      · right; rw [List.foldl_cons, h, hm]; exact List.mem_cons_self _ _
    · right; rw [List.foldl_cons]; exact List.mem_cons_of_mem _ h

theorem listMax_mem {xs : List ℚ} {m : ℚ} (h : listMax xs = some m) : m ∈ xs := by
  cases xs with
  | nil => simp [listMax] at h
  | cons x xs =>
    simp only [listMax, Option.some.injEq] at h
    subst h
    rcases foldlMax_mem xs x with h | h
    · rw [h]; exact List.mem_cons_self _ _
    · exact List.mem_cons_of_mem _ h

theorem findIdxNear_of_mem {m tol : ℚ} (htol : 0 < tol) :
    ∀ {xs : List ℚ}, m ∈ xs → ∃ i, findIdxNear m tol xs = some i ∧ i < xs.length := by
  intro xs
  induction xs with
  | nil => intro h; cases h
  | cons v vs ih =>
    intro hmem
    by_cases hv : |v - m| < tol
    · exact ⟨0, by simp [findIdxNear, hv], by simp⟩
    · have hm : m ∈ vs := by
        rcases List.mem_cons.mp hmem with h | h
        · exact absurd (by rw [h, sub_self, abs_zero]; exact htol) hv
        · exact h
      obtain ⟨i, hi, hlen⟩ := ih hm
      exact ⟨i + 1, by simp [findIdxNear, hv, hi], by simpa using Nat.succ_lt_succ hlen⟩

theorem signCorrect_nonneg (p : FitTriple) :
    0 ≤ (signCorrect p).amp ∧ 0 ≤ (signCorrect p).freq := by
  unfold signCorrect
  split
  · exact ⟨abs_nonneg _, abs_nonneg _⟩
  · next h =>
    push_neg at h
    exact h

theorem fitLoop_of_neg (fitOracle : FitTriple → Option FitTriple) (fuel : ℕ)
    (popt arr : FitTriple) (hfuel : 2 ≤ fuel) (hneg : popt.amp < 0 ∨ popt.freq < 0) :
    fitLoop fitOracle fuel popt arr = (fitOracle arr).map signCorrect := by
  obtain ⟨f, rfl⟩ : ∃ f, fuel = f + 2 := ⟨fuel - 2, by omega⟩
  show fitLoop fitOracle (f + 1 + 1) popt arr = _
  rw [fitLoop, if_pos hneg]
  cases h : fitOracle arr with
  | none => rfl
  | some p =>
    show fitLoop fitOracle (f + 1) (signCorrect p) (signCorrect p) = some (signCorrect p)
    have hnn := signCorrect_nonneg p
    rw [fitLoop, if_neg (by push_neg; exact hnn)]

/-! ### Claim C1 -/

/-- Claim C1 (amended): for every spectrum with a located peak and every
converging optimizer, the returned fit is the sign-corrected output of a
SINGLE optimizer call made at the seed `(peakPower, peakFrequency, 0)`:
when that output has a negative amplitude or frequency the correction
(absolute values, phase moved by pi) is applied to it and the loop exits
at once — it never re-fits with the corrected seed.  In particular the
returned amplitude and frequency are always non-negative. -/
theorem findAndRemoveMaxFrequency_sign_correction
    (fitOracle : FitTriple → Option FitTriple) (fuel : ℕ) (hfuel : 2 ≤ fuel)
    (ampSpectrum : List ℚ × List ℚ) (maxY maxX : ℚ)
    (hmax : findMaxPowerFrequency ampSpectrum = some (maxY, maxX)) :
    findAndRemoveMaxFrequency fitOracle fuel ampSpectrum =
      (fitOracle ⟨maxY, maxX, 0⟩).map signCorrect ∧
    ∀ r, findAndRemoveMaxFrequency fitOracle fuel ampSpectrum = some r →
      0 ≤ r.amp ∧ 0 ≤ r.freq := by
  have heq : findAndRemoveMaxFrequency fitOracle fuel ampSpectrum =
      (fitOracle ⟨maxY, maxX, 0⟩).map signCorrect := by
    unfold findAndRemoveMaxFrequency
    rw [hmax]
    exact fitLoop_of_neg _ _ _ _ hfuel (Or.inl (show (-1 : ℚ) < 0 by norm_num))
  refine ⟨heq, ?_⟩
  intro r hr
  rw [heq] at hr
  cases h : fitOracle ⟨maxY, maxX, 0⟩ with
  | none => rw [h] at hr; cases hr
  | some p =>
    rw [h] at hr
    simp only [Option.map_some', Option.some.injEq] at hr
    subst hr
    exact signCorrect_nonneg p

/-- Witness for the claim C1 theorem at a concrete spectrum and oracle. -/
theorem findAndRemoveMaxFrequency_sign_correction_witness :
    (2 ≤ 10) ∧ findMaxPowerFrequency ([1, 2], [1, 3]) = some (3, 2) ∧
    (findAndRemoveMaxFrequency c1Oracle 10 ([1, 2], [1, 3]) =
        (c1Oracle ⟨3, 2, 0⟩).map signCorrect ∧
      ∀ r, findAndRemoveMaxFrequency c1Oracle 10 ([1, 2], [1, 3]) = some r →
        0 ≤ r.amp ∧ 0 ≤ r.freq) :=
  ⟨by norm_num, by decide,
    findAndRemoveMaxFrequency_sign_correction c1Oracle 10 (by norm_num)
      ([1, 2], [1, 3]) 3 2 (by decide)⟩

/-- Claim C1 counterexample: the optimizer returns a negative amplitude
on the first call; the code corrects it in place and returns it without
any re-fit, while the re-fitting loop the claim describes would consult
the oracle again at the corrected seed and return its (different)
answer. -/
theorem findAndRemoveMaxFrequency_no_refit_cex :
    findAndRemoveMaxFrequency c1Oracle 10 ([1, 2], [1, 3]) = some ⟨1, 2, piQ⟩ ∧
    specReFitLoop c1Oracle 10 ⟨3, 2, 0⟩ = some ⟨5, 7, 0⟩ ∧
    (⟨1, 2, piQ⟩ : FitTriple) ≠ ⟨5, 7, 0⟩ := by decide

/-! ### Claims C2 and C8: the extraction loop -/

theorem recursiveFrequencyFinderGo_snr (snrSeq : ℕ → ℚ) (fitSeq : ℕ → FitTriple)
    (crit : ℚ) (sc : ℕ) (ssd : ℚ) :
    ∀ (fuel : ℕ) (snr : ℚ) (prevFit : Option FitTriple) (acc : List Rec4) (rounds : ℕ),
      (∀ e ∈ acc, crit < e.2.1) →
      ∀ e ∈ (recursiveFrequencyFinderGo snrSeq fitSeq crit sc ssd
          fuel snr prevFit acc rounds).1, crit < e.2.1 := by
  intro fuel
  induction fuel with
  | zero => intro snr prevFit acc rounds hacc e he; exact hacc e he
  | succ f ih =>
    intro snr prevFit acc rounds hacc e he
    by_cases hsnr : crit < snr
    · cases prevFit with
      | none =>
        simp only [recursiveFrequencyFinderGo, if_pos hsnr] at he
        by_cases hcut : cutoffCriterion sc ssd acc = true
        · rw [if_pos hcut] at he
          exact ih _ _ _ _ hacc e he
        · rw [if_neg hcut] at he
          exact hacc e he
      | some fit =>
        simp only [recursiveFrequencyFinderGo, if_pos hsnr] at he
        have hacc2 : ∀ e ∈ acc ++ [(fit.freq, snr, fit.amp, fit.phase)], crit < e.2.1 := by
          intro e' he'
          rcases List.mem_append.mp he' with h | h
          · exact hacc e' h
          · simp only [List.mem_singleton] at h
            subst h
            exact hsnr
        by_cases hcut : cutoffCriterion sc ssd (acc ++ [(fit.freq, snr, fit.amp, fit.phase)]) = true
        · rw [if_pos hcut] at he
          exact ih _ _ _ _ hacc2 e he
        · rw [if_neg hcut] at he
          exact hacc2 e he
    · simp only [recursiveFrequencyFinderGo, if_neg hsnr] at he
      exact hacc e he

/-- Claim C2 (amended): an entry is appended only at the top of the NEXT
iteration, which runs only when the snr of its round still exceeds the
criterion: every snr stored in the returned record strictly exceeds
`snrCriterion`.  When the loop stops because the snr fell to or below
the criterion, the fit of that final boundary round is never appended
(see the counterexample) — no extra insignificant frequency appears. -/
theorem recursiveFrequencyFinder_record_snr (snrSeq : ℕ → ℚ) (fitSeq : ℕ → FitTriple)
    (snrCriterion : ℚ) (sc : ℕ) (ssd : ℚ) (fuel : ℕ) (e : Rec4)
    (he : e ∈ (recursiveFrequencyFinder snrSeq fitSeq snrCriterion sc ssd fuel).1) :
    snrCriterion < e.2.1 :=
  recursiveFrequencyFinderGo_snr snrSeq fitSeq snrCriterion sc ssd fuel 100 none [] 0
    (by intro e' he'; cases he') e he

/-- Witness for the claim C2 theorem on a concrete three-round run. -/
theorem recursiveFrequencyFinder_record_snr_witness :
    ((2, 10, 1, 0) : Rec4) ∈ (recursiveFrequencyFinder snrSeqW fitSeqW 5 3 1 3).1 ∧
    (5 : ℚ) < ((2, 10, 1, 0) : Rec4).2.1 :=
  ⟨by decide,
    recursiveFrequencyFinder_record_snr snrSeqW fitSeqW 5 3 1 3 (2, 10, 1, 0) (by decide)⟩

/-- Claim C2 counterexample: with criterion 5 the first computed snr is
3, so the loop stops at the boundary after one round; the fit of that
round (frequency 9, snr 3, amplitude 7, phase 0) is performed but never
appended — the returned record is empty, while the claim asserts the
boundary fit always appears at its end. -/
theorem recursiveFrequencyFinder_boundary_fit_dropped_cex :
    recursiveFrequencyFinder snrSeqCex fitSeqCex 5 3 (1 / 100) 10 = ([], 1) ∧
    ((9, 3, 7, 0) : Rec4) ∉ (recursiveFrequencyFinder snrSeqCex fitSeqCex 5 3 (1 / 100) 10).1 := by
  decide

theorem recursiveFrequencyFinderGo_rounds_le (snrSeq : ℕ → ℚ) (fitSeq : ℕ → FitTriple)
    (crit : ℚ) (sc : ℕ) (ssd : ℚ) :
    ∀ (fuel : ℕ) (snr : ℚ) (prevFit : Option FitTriple) (acc : List Rec4) (rounds : ℕ),
      rounds ≤ (recursiveFrequencyFinderGo snrSeq fitSeq crit sc ssd
        fuel snr prevFit acc rounds).2 := by
  intro fuel
  induction fuel with
  | zero => intro snr prevFit acc rounds; exact le_refl _
  | succ f ih =>
    intro snr prevFit acc rounds
    by_cases hsnr : crit < snr
    · cases prevFit with
      | none =>
        simp only [recursiveFrequencyFinderGo, if_pos hsnr]
        by_cases hcut : cutoffCriterion sc ssd acc = true
        · rw [if_pos hcut]
          exact le_trans (Nat.le_succ rounds) (ih _ _ _ _)
        · rw [if_neg hcut]
          exact Nat.le_succ rounds
      | some fit =>
        simp only [recursiveFrequencyFinderGo, if_pos hsnr]
        by_cases hcut : cutoffCriterion sc ssd (acc ++ [(fit.freq, snr, fit.amp, fit.phase)]) = true
        · rw [if_pos hcut]
          exact le_trans (Nat.le_succ rounds) (ih _ _ _ _)
        · rw [if_neg hcut]
          exact Nat.le_succ rounds
    · simp only [recursiveFrequencyFinderGo, if_neg hsnr]
      exact le_refl _

/-- Claim C8 (amended): the snr state is seeded with the sentinel 100,
so for every criterion strictly below 100 the loop body (spectrum, snr,
fit and subtract) executes at least once before any stop decision; for
criteria at or above 100 the sentinel does NOT exceed the cutoff and the
body never runs (see the counterexample). -/
theorem recursiveFrequencyFinder_runs_once (snrSeq : ℕ → ℚ) (fitSeq : ℕ → FitTriple)
    (snrCriterion : ℚ) (sc : ℕ) (ssd : ℚ) (fuel : ℕ)
    (hcrit : snrCriterion < 100) (hfuel : 1 ≤ fuel) :
    1 ≤ (recursiveFrequencyFinder snrSeq fitSeq snrCriterion sc ssd fuel).2 := by
  obtain ⟨f, rfl⟩ : ∃ f, fuel = f + 1 := ⟨fuel - 1, by omega⟩
  unfold recursiveFrequencyFinder
  simp only [recursiveFrequencyFinderGo, if_pos hcrit]
  by_cases hcut : cutoffCriterion sc ssd [] = true
  · rw [if_pos hcut]
    exact recursiveFrequencyFinderGo_rounds_le snrSeq fitSeq snrCriterion sc ssd f _ _ _ 1
  · rw [if_neg hcut]

/-- Witness for the claim C8 theorem on a concrete run. -/
theorem recursiveFrequencyFinder_runs_once_witness :
    ((5 : ℚ) < 100) ∧ 1 ≤ (recursiveFrequencyFinder snrSeqW fitSeqW 5 3 1 3).2 :=
  ⟨by norm_num, recursiveFrequencyFinder_runs_once snrSeqW fitSeqW 5 3 1 3
    (by norm_num) (by norm_num)⟩

/-- Claim C8 counterexample: with `snrCriterion = 100` the sentinel does
not exceed the cutoff and the loop body executes zero times, against the
claim that it executes at least once for EVERY criterion value. -/
theorem recursiveFrequencyFinder_sentinel_cex :
    recursiveFrequencyFinder snrSeqW fitSeqW 100 3 1 10 = ([], 0) := by decide

/-! ### Claim C3 -/

/-- Claim C3 (code bug): on a record whose last three frequencies are
5, 5.001 and 5.0005 — within the 0.01 similarity threshold, so both the
spec and the printed message of the function itself say the analysis
must stop — the guard still returns `true` (continue), because
`np.array(frequencyList[-3:]).std()` runs over the flattened 4-tuples
(frequency, snr, amplitude, phase), not over the frequency values. -/
theorem cutoffCriterion_flattened_std_bug :
    cutoffCriterion 3 (1 / 100) c3Record = true ∧
    stdBelow [5, 5001 / 1000, 50005 / 10000] (1 / 100) = true ∧
    stdBelow (flattenRecs c3Record) (1 / 100) = false := by decide

/-! ### Claim C9 -/

theorem hstackFold_eq (tList : List (List ℚ)) : hstackFold tList = tList.flatten := by
  suffices h : ∀ acc : List ℚ, tList.foldl (fun t i => t ++ i) acc = acc ++ tList.flatten by
    simpa [hstackFold] using h []
  induction tList with
  | nil => intro acc; simp
  | cons l ls ih => intro acc; simp [List.foldl_cons, ih]

theorem rowStackFold_eq (iList : List (List ℚ)) : rowStackFold iList = iList := by
  suffices h : ∀ acc : List (List ℚ), iList.foldl (fun m j => m ++ [j]) acc = acc ++ iList by
    simpa [rowStackFold] using h []
  induction iList with
  | nil => intro acc; simp
  | cons l ls ih => intro acc; simp [List.foldl_cons, ih]

/-- Claim C9: `combineDatasets` fails exactly when one of the three
input collections is empty; otherwise it returns the first frequency
array unchanged, the time arrays concatenated end-to-end and the
intensity arrays stacked as the rows of a matrix — verified on the
concrete example of the claim. -/
theorem combineDatasets_spec (fList tList iList : List (List ℚ)) :
    combineDatasets fList tList iList =
      (if fList = [] ∨ tList = [] ∨ iList = [] then none
        else some (fList.headI, tList.flatten, iList)) ∧
    combineDatasets [[1, 2, 3]] [[0, 1], [2, 3]] [[1 / 10, 2 / 10], [3 / 10, 4 / 10]] =
      some ([1, 2, 3], [0, 1, 2, 3], [[1 / 10, 2 / 10], [3 / 10, 4 / 10]]) := by
  constructor
  · unfold combineDatasets
    rw [hstackFold_eq, rowStackFold_eq]
  · decide

/-! ### Claim C5: the minima scan -/

theorem findNextMinimasGo_terminates (yData : List ℚ) (index : ℕ) :
    ∀ (fuel counter : ℕ) (l u : ℤ), 1 ≤ fuel →
      index + yData.length + 4 ≤ counter + fuel →
      (findNextMinimasGo yData index fuel counter l u).isSome = true := by
  intro fuel
  induction fuel with
  | zero => intro counter l u h1 hb; exact absurd h1 (by omega)
  | succ f ih =>
    intro counter l u h1 hb
    by_cases hc : index + yData.length + 2 ≤ counter
    · have h3 : lowerUpdate yData ((index : ℤ) - (counter : ℤ)) l =
          (index : ℤ) - (counter : ℤ) := by
        unfold lowerUpdate
        rw [if_pos (show (index : ℤ) - (counter : ℤ) - 1 < 0 by omega)]
      have h4 : upperUpdate yData ((index : ℤ) + (counter : ℤ)) u =
          (index : ℤ) + (counter : ℤ) := by
        unfold upperUpdate
        rw [if_pos (show (yData.length : ℤ) ≤ (index : ℤ) + (counter : ℤ) + 1 by omega)]
      simp only [findNextMinimasGo, h3, h4]
      rw [if_pos ⟨show (index : ℤ) - (counter : ℤ) ≠ -1 by omega,
        show (index : ℤ) + (counter : ℤ) ≠ -1 by omega⟩]
      rfl
    · simp only [findNextMinimasGo]
      split
      · rfl
      · exact ih (counter + 1) _ _ (by omega) (by omega)

theorem lowerUpdate_char (yData : List ℚ) (a l : ℤ)
    (hl : l = -1 ∨ l ≤ 0 ∨ checkMinima yData l = true) :
    lowerUpdate yData a l = -1 ∨ lowerUpdate yData a l ≤ 0 ∨
      checkMinima yData (lowerUpdate yData a l) = true := by
  unfold lowerUpdate
  split_ifs with h1 h2
  · right; left; omega
  · right; right; exact h2
  · exact hl

theorem upperUpdate_char (yData : List ℚ) (a u : ℤ)
    (hu : u = -1 ∨ (yData.length : ℤ) - 1 ≤ u ∨ checkMinima yData u = true) :
    upperUpdate yData a u = -1 ∨ (yData.length : ℤ) - 1 ≤ upperUpdate yData a u ∨
      checkMinima yData (upperUpdate yData a u) = true := by
  unfold upperUpdate
  split_ifs with h1 h2
  · right; left; omega
  · right; right; exact h2
  · exact hu

theorem findNextMinimasGo_char (yData : List ℚ) (index : ℕ) :
    ∀ (fuel counter : ℕ) (l u : ℤ),
      (l = -1 ∨ l ≤ 0 ∨ checkMinima yData l = true) →
      (u = -1 ∨ (yData.length : ℤ) - 1 ≤ u ∨ checkMinima yData u = true) →
      ∀ l2 u2, findNextMinimasGo yData index fuel counter l u = some (l2, u2) →
        (l2 ≤ 0 ∨ checkMinima yData l2 = true) ∧
        ((yData.length : ℤ) - 1 ≤ u2 ∨ checkMinima yData u2 = true) := by
  intro fuel
  induction fuel with
  | zero => intro counter l u hl hu l2 u2 h; cases h
  | succ f ih =>
    intro counter l u hl hu l2 u2 h
    simp only [findNextMinimasGo] at h
    have hlow := lowerUpdate_char yData ((index : ℤ) - (counter : ℤ)) l hl
    have hup := upperUpdate_char yData ((index : ℤ) + (counter : ℤ)) u hu
    split at h
    · next hcond =>
      simp only [Option.some.injEq, Prod.mk.injEq] at h
      obtain ⟨rfl, rfl⟩ := h
      constructor
      · rcases hlow with h3 | h3 | h3
        · exact absurd h3 hcond.1
        · exact Or.inl h3
        · exact Or.inr h3
      · rcases hup with h3 | h3 | h3
        · exact absurd h3 hcond.2
        · exact Or.inl h3
        · exact Or.inr h3
    · exact ih (counter + 1) _ _ hlow hup l2 u2 h

/-- Claim C5 (amended): for every power array with at least two entries
the scan terminates and returns a pair of indices, and each returned
index is either an interior local minimum in the sense of `checkMinima`
or an edge fallback — at most 0 on the lower side, at least `len - 1`
on the upper side.  The fallback value is NOT always the boundary index
itself and may lie outside the array, and a nearer minimum can be
overwritten while the scan continues for the other side (see the
counterexample). -/
theorem findNextMinimas_terminates_characterized (yData : List ℚ) (h2 : 2 ≤ yData.length) :
    ∃ l u, findNextMinimas yData = some (l, u) ∧
      (l ≤ 0 ∨ checkMinima yData l = true) ∧
      ((yData.length : ℤ) - 1 ≤ u ∨ checkMinima yData u = true) := by
  obtain ⟨v, vs, rfl⟩ : ∃ v vs, yData = v :: vs := by
    cases yData with
    | nil => simp at h2
    | cons v vs => exact ⟨v, vs, rfl⟩
  have hmax : listMax (v :: vs) = some (vs.foldl max v) := rfl
  have hmem : vs.foldl max v ∈ v :: vs := listMax_mem hmax
  obtain ⟨idx, hidx, hlen⟩ :=
    findIdxNear_of_mem (show (0 : ℚ) < 1 / 1000000 by norm_num) hmem
  have hterm := findNextMinimasGo_terminates (v :: vs) idx (2 * (v :: vs).length + 4) 1
    (-1) (-1) (by omega) (by omega)
  obtain ⟨p, hp⟩ := Option.isSome_iff_exists.mp hterm
  obtain ⟨l, u⟩ := p
  have hchar := findNextMinimasGo_char (v :: vs) idx (2 * (v :: vs).length + 4) 1 (-1) (-1)
    (Or.inl rfl) (Or.inl rfl) l u hp
  refine ⟨l, u, ?_, hchar.1, hchar.2⟩
  simp only [findNextMinimas, hmax, hidx]
  exact hp

/-- Witness for the claim C5 theorem at a concrete short array. -/
theorem findNextMinimas_terminates_characterized_witness :
    2 ≤ ([1, 3, 2] : List ℚ).length ∧
    (∃ l u, findNextMinimas [1, 3, 2] = some (l, u) ∧
      (l ≤ 0 ∨ checkMinima [1, 3, 2] l = true) ∧
      ((([1, 3, 2] : List ℚ).length : ℤ) - 1 ≤ u ∨ checkMinima [1, 3, 2] u = true)) :=
  ⟨by norm_num, findNextMinimas_terminates_characterized [1, 3, 2] (by norm_num)⟩

/-- Claim C5 counterexample.  On `[0, 5, 4, 3, 2, 1]` the lower side has
no interior minimum and the claim prescribes the boundary index 0 as
fallback, but the loop keeps running for the upper side and overwrites
the lower register down to -3, an index outside the array.  On
`[3, 2, 1, 0, 5, 4, 3, 2, 1]` the nearest interior lower minimum is at
index 3, yet the scan returns 0 for the lower side. -/
theorem findNextMinimas_overwrite_cex :
    findNextMinimas [0, 5, 4, 3, 2, 1] = some (-3, 5) ∧ ((-3 : ℤ) ≠ 0) ∧ ((-3 : ℤ) < 0) ∧
    findNextMinimas [3, 2, 1, 0, 5, 4, 3, 2, 1] = some (0, 8) ∧
    checkMinima [3, 2, 1, 0, 5, 4, 3, 2, 1] 3 = true ∧ ((0 : ℤ) ≠ 3) := by decide

/-! ### Claims C4 and C10: the signal-to-noise estimator -/

/-- Claim C4 (amended): whenever the minima scan succeeds, the snr is
the first power value within 1e-6 of the maximum divided by the mean
power over the Python slice from `lowerMinima - halfWindow` up to
`lowerMinima` concatenated with the slice from `upperMinima` up to
`upperMinima + halfWindow`, where `halfWindow` is the TRUNCATION
`int(windowSize / meanFrequencyStep)` of the window size over the mean
frequency step — not its rounding, as the claim states (see the
counterexample). -/
theorem computeSignalToNoise_formula (ampSpectrum : List ℚ × List ℚ) (windowSize : ℚ)
    (l u : ℤ) (m : ℚ) (halfWindow : ℤ)
    (hmin : findNextMinimas ampSpectrum.2 = some (l, u))
    (hmax : firstNearMax ampSpectrum.2 = some m)
    (hhw : halfWindow = intTrunc (windowSize / listMean (diffsOf ampSpectrum.1))) :
    computeSignalToNoise ampSpectrum windowSize =
      some (m / listMean (pySlice ampSpectrum.2 (l - halfWindow) l ++
        pySlice ampSpectrum.2 u (u + halfWindow))) := by
  subst hhw
  simp only [computeSignalToNoise, hmin, hmax]

/-- Witness for the claim C4 theorem on a concrete spectrum. -/
theorem computeSignalToNoise_formula_witness :
    findNextMinimas c4y = some (2, 4) ∧ firstNearMax c4y = some 9 ∧
    ((1 : ℤ) = intTrunc ((3 / 2) / listMean (diffsOf c4x))) ∧
    computeSignalToNoise (c4x, c4y) (3 / 2) =
      some (9 / listMean (pySlice c4y (2 - 1) 2 ++ pySlice c4y 4 (4 + 1))) :=
  ⟨by decide, by decide, by decide,
    computeSignalToNoise_formula (c4x, c4y) (3 / 2) 2 4 9 1 (by decide) (by decide) (by decide)⟩

/-- Claim C4 counterexample: on the spectrum `(c4x, c4y)` with window
size 1.5 the mean frequency step is 1; the source truncates 1.5 to a
half window of 1 and returns snr 3, while the rounding the claim
prescribes gives a half window of 2 and the different value 36/17. -/
theorem computeSignalToNoise_trunc_not_round_cex :
    computeSignalToNoise (c4x, c4y) (3 / 2) = some 3 ∧
    pyRound ((3 / 2) / listMean (diffsOf c4x)) = 2 ∧
    intTrunc ((3 / 2) / listMean (diffsOf c4x)) = 1 ∧
    (9 : ℚ) / listMean (pySlice c4y (2 - 2) 2 ++ pySlice c4y 4 (4 + 2)) = 36 / 17 ∧
    ((3 : ℚ) ≠ 36 / 17) := by decide

theorem pySlice_neg_empty (xs : List ℚ) (a b : ℤ) (ha : a < 0) (hb0 : 0 ≤ b)
    (hble : b ≤ (xs.length : ℤ)) (hge : b ≤ (xs.length : ℤ) + a) :
    pySlice xs a b = [] := by
  unfold pySlice pyNormIdx
  rw [if_pos ha, if_neg (not_lt.mpr hb0)]
  apply List.drop_eq_nil_of_le
  rw [List.length_take]
  omega

theorem pySlice_neg_nonempty (xs : List ℚ) (a b : ℤ) (ha : a < 0) (hb0 : 0 < b)
    (hble : b ≤ (xs.length : ℤ)) (hlt : (xs.length : ℤ) + a < b) :
    pySlice xs a b ≠ [] := by
  unfold pySlice pyNormIdx
  rw [if_pos ha, if_neg (not_lt.mpr (le_of_lt hb0))]
  intro hcontra
  have hlen := congrArg List.length hcontra
  rw [List.length_drop, List.length_take, List.length_nil] at hlen
  omega

theorem pySlice_neg_neg (xs : List ℚ) (a b : ℤ) (ha : a < 0) (hb : b < 0)
    (ha0 : 0 ≤ (xs.length : ℤ) + a) (hb0 : 0 ≤ (xs.length : ℤ) + b) :
    pySlice xs a b = pySlice xs ((xs.length : ℤ) + a) ((xs.length : ℤ) + b) := by
  unfold pySlice pyNormIdx
  rw [if_pos ha, if_pos hb, if_neg (not_lt.mpr ha0), if_neg (not_lt.mpr hb0)]
  have e1 : (max ((xs.length : ℤ) + b) 0).toNat =
      min ((xs.length : ℤ) + b).toNat xs.length := by omega
  have e2 : (max ((xs.length : ℤ) + a) 0).toNat =
      min ((xs.length : ℤ) + a).toNat xs.length := by omega
  rw [e1, e2]

/-- Claim C10 (amended): whenever the minima scan succeeds,
`computeSignalToNoise` returns a value — no out-of-bounds error, for any
sign of `lowerMinima`; the lower noise slice evaluates under Python
negative-index semantics.  With `0 ≤ lowerMinima ≤ len` and
`lowerMinima - halfWindow` negative the lower window is empty whenever
`halfWindow ≤ len`, and the noise floor then comes from the upper
window alone; when `halfWindow` exceeds the array length and
`0 < lowerMinima` the normalized start clamps to the head of the array
and the lower window is NOT empty (see the counterexample), a case the
claim omits; and when `lowerMinima` itself is negative (its end-relative
position and the window start both in range) the lower window equals the
same slice with both indices translated by the array length — the
samples are counted from the end of the array, as the claim says. -/
theorem computeSignalToNoise_edge_window (ampSpectrum : List ℚ × List ℚ) (w : ℚ)
    (l u : ℤ) (m : ℚ) (halfWindow : ℤ)
    (hmin : findNextMinimas ampSpectrum.2 = some (l, u))
    (hmax : firstNearMax ampSpectrum.2 = some m)
    (hhw : halfWindow = intTrunc (w / listMean (diffsOf ampSpectrum.1))) :
    (∃ r, computeSignalToNoise ampSpectrum w = some r) ∧
    (0 ≤ l → l ≤ (ampSpectrum.2.length : ℤ) → l - halfWindow < 0 →
      halfWindow ≤ (ampSpectrum.2.length : ℤ) →
      pySlice ampSpectrum.2 (l - halfWindow) l = [] ∧
      computeSignalToNoise ampSpectrum w =
        some (m / listMean (pySlice ampSpectrum.2 u (u + halfWindow)))) ∧
    (0 < l → l ≤ (ampSpectrum.2.length : ℤ) → (ampSpectrum.2.length : ℤ) < halfWindow →
      pySlice ampSpectrum.2 (l - halfWindow) l ≠ []) ∧
    (l < 0 → l - halfWindow < 0 → 0 ≤ (ampSpectrum.2.length : ℤ) + (l - halfWindow) →
      0 ≤ (ampSpectrum.2.length : ℤ) + l →
      pySlice ampSpectrum.2 (l - halfWindow) l =
        pySlice ampSpectrum.2 ((ampSpectrum.2.length : ℤ) + (l - halfWindow))
          ((ampSpectrum.2.length : ℤ) + l)) := by
  have hform : computeSignalToNoise ampSpectrum w =
      some (m / listMean (pySlice ampSpectrum.2 (l - halfWindow) l ++
        pySlice ampSpectrum.2 u (u + halfWindow))) := by
    subst hhw
    simp only [computeSignalToNoise, hmin, hmax]
  refine ⟨⟨_, hform⟩, ?_, ?_, ?_⟩
  · intro hl0 hll hneg hle
    have hempty : pySlice ampSpectrum.2 (l - halfWindow) l = [] :=
      pySlice_neg_empty _ _ _ hneg hl0 hll (by omega)
    refine ⟨hempty, ?_⟩
    rw [hform, hempty, List.nil_append]
  · intro hl0 hll hgt
    exact pySlice_neg_nonempty _ _ _ (by omega) hl0 hll (by omega)
  · intro hlneg hneg h1 h2
    exact pySlice_neg_neg _ _ _ hneg hlneg (by omega) (by omega)

/-- Witness for the claim C10 theorem on a concrete spectrum whose
minima scan returns the NEGATIVE lower index -3, with half window 2:
the totality part and the negative-index translation branch are live
at this instance. -/
theorem computeSignalToNoise_edge_window_witness :
    findNextMinimas c10y = some (-3, 5) ∧ firstNearMax c10y = some 5 ∧
    ((2 : ℤ) = intTrunc (2 / listMean (diffsOf c10x))) ∧
    ((∃ r, computeSignalToNoise (c10x, c10y) 2 = some r) ∧
      ((0 : ℤ) ≤ -3 → (-3 : ℤ) ≤ (c10y.length : ℤ) → (-3 : ℤ) - 2 < 0 →
        (2 : ℤ) ≤ (c10y.length : ℤ) →
        pySlice c10y (-3 - 2) (-3) = [] ∧
        computeSignalToNoise (c10x, c10y) 2 =
          some (5 / listMean (pySlice c10y 5 (5 + 2)))) ∧
      ((0 : ℤ) < -3 → (-3 : ℤ) ≤ (c10y.length : ℤ) → (c10y.length : ℤ) < 2 →
        pySlice c10y (-3 - 2) (-3) ≠ []) ∧
      ((-3 : ℤ) < 0 → (-3 : ℤ) - 2 < 0 → 0 ≤ (c10y.length : ℤ) + ((-3 : ℤ) - 2) →
        0 ≤ (c10y.length : ℤ) + (-3 : ℤ) →
        pySlice c10y (-3 - 2) (-3) =
          pySlice c10y ((c10y.length : ℤ) + ((-3 : ℤ) - 2)) ((c10y.length : ℤ) + (-3 : ℤ)))) :=
  ⟨by decide, by decide, by decide,
    computeSignalToNoise_edge_window (c10x, c10y) 2 (-3) 5 5 2 (by decide) (by decide)
      (by decide)⟩

/-- Claim C10 counterexample: with half window 10 against 9 samples and
`lowerMinima = 2 ≥ 0`, the lower slice is the NON-empty `[4]` — taken
from the head of the array, not from its upper end — so neither of the
two outcomes the claim enumerates occurs; the snr is 108/71 instead of
the 10/7 an empty lower window would give. -/
theorem computeSignalToNoise_clamped_window_cex :
    computeSignalToNoise (c4x, c4y) 10 = some (108 / 71) ∧
    intTrunc (10 / listMean (diffsOf c4x)) = 10 ∧
    pySlice c4y (2 - 10) 2 = [4] ∧ ((0 : ℤ) ≤ 2) ∧ ¬([(4 : ℚ)] = []) ∧
    (9 : ℚ) / listMean (pySlice c4y 4 (4 + 10)) = 10 / 7 ∧
    ((108 : ℚ) / 71 ≠ 10 / 7) := by decide

/-! ### Claim C6: the amplitude spectrum -/

/-- Claim C6: for a valid light curve (at least two samples, so the
Nyquist frequency exists) and a boundary with min at most max, the
spectrum returned drops the first sample of the periodogram, removes
every sample at or above the nominal upper bound, and — provided the
external periodogram routine keeps its grid inside the requested range
and returns non-negative raw powers, and the square root is
non-negative on non-negative input — every returned frequency lies in
`[boundary.min, min (boundary.max) nyquist]`, strictly below
`boundary.max`, with every power value non-negative.  Frequencies and
powers come paired, so the two arrays have equal length by
construction. -/
theorem calculateAmplitudeSpectrum_bounds (autopower : ℚ → ℚ → List (ℚ × ℚ))
    (npSqrt : ℚ → ℚ) (time : List ℚ) (fb : ℚ × ℚ) (nF maxF : ℚ)
    (hn : nyquistFrequency time = some nF)
    (hb : fb.1 ≤ fb.2)
    (hmaxF : maxF = if nF < fb.2 then nF else fb.2)
    (horacle : ∀ q ∈ autopower fb.1 maxF, fb.1 ≤ q.1 ∧ q.1 ≤ maxF ∧ 0 ≤ q.2)
    (hsqrt : ∀ a : ℚ, 0 ≤ a → 0 ≤ npSqrt a) :
    ∃ out, calculateAmplitudeSpectrum autopower npSqrt time fb = some out ∧
      ∀ q ∈ out, fb.1 ≤ q.1 ∧ q.1 < fb.2 ∧ q.1 ≤ min fb.2 nF ∧ 0 ≤ q.2 := by
  subst hmaxF
  refine ⟨(((autopower fb.1 (if nF < fb.2 then nF else fb.2)).map
      (fun p => (p.1, npSqrt (4 / (time.length : ℚ)) * npSqrt p.2))).drop 1).filter
      (fun q => decide (q.1 < fb.2)), ?_, ?_⟩
  · simp only [calculateAmplitudeSpectrum, hn]
    rw [if_neg (not_lt.mpr hb)]
  · intro q hq
    rw [List.mem_filter] at hq
    obtain ⟨hq1, hq2⟩ := hq
    have hqlt : q.1 < fb.2 := of_decide_eq_true hq2
    have hq3 : q ∈ (autopower fb.1 (if nF < fb.2 then nF else fb.2)).map
        (fun p => (p.1, npSqrt (4 / (time.length : ℚ)) * npSqrt p.2)) :=
      List.mem_of_mem_drop hq1
    rw [List.mem_map] at hq3
    obtain ⟨p, hp, rfl⟩ := hq3
    obtain ⟨h1, h2, h3⟩ := horacle p hp
    refine ⟨h1, hqlt, ?_, ?_⟩
    · rw [le_min_iff]
      by_cases hcase : nF < fb.2
      · rw [if_pos hcase] at h2
        exact ⟨le_trans h2 (le_of_lt hcase), h2⟩
      · rw [if_neg hcase] at h2
        exact ⟨h2, le_trans h2 (not_lt.mp hcase)⟩
    · exact mul_nonneg (hsqrt _ (div_nonneg (by norm_num) (Nat.cast_nonneg _))) (hsqrt _ h3)

/-- Witness for the claim C6 theorem: three uniform time samples of
spacing 1, Nyquist one half, nominal boundary (0, 10) clipped to the
Nyquist frequency, identity square-root stand-in. -/
theorem calculateAmplitudeSpectrum_bounds_witness :
    nyquistFrequency [0, 1, 2] = some (1 / 2) ∧ ((0 : ℚ) ≤ 10) ∧
    (∃ out, calculateAmplitudeSpectrum c6autopower (fun a => a) [0, 1, 2] (0, 10) = some out ∧
      ∀ q ∈ out, (0 : ℚ) ≤ q.1 ∧ q.1 < 10 ∧ q.1 ≤ min 10 (1 / 2) ∧ 0 ≤ q.2) :=
  ⟨by decide, by norm_num,
    calculateAmplitudeSpectrum_bounds c6autopower (fun a => a) [0, 1, 2] (0, 10) (1 / 2)
      (1 / 2) (by decide) (by norm_num) (by norm_num) (by decide) (fun a ha => ha)⟩

/-! ### Claim C7: the Nyquist frequency -/

theorem argmaxCount_isSome (ds : List ℚ) (v : ℚ) (vs : List ℚ) :
    (argmaxCount ds (v :: vs)).isSome = true := by
  simp only [argmaxCount]
  cases argmaxCount ds vs with
  | none => rfl
  | some p =>
    obtain ⟨bv, bc⟩ := p
    show (if bc < ds.count v ∨ (ds.count v = bc ∧ v < bv) then some (v, ds.count v)
      else some (bv, bc)).isSome = true
    split <;> rfl

theorem argmaxCount_spec (ds : List ℚ) :
    ∀ vs : List ℚ, ∀ bv : ℚ, ∀ bc : ℕ, argmaxCount ds vs = some (bv, bc) →
      bv ∈ vs ∧ bc = ds.count bv ∧ ∀ v ∈ vs, ds.count v ≤ bc := by
  intro vs
  induction vs with
  | nil => intro bv bc h; cases h
  | cons v vs ih =>
    intro bv bc h
    cases hrec : argmaxCount ds vs with
    | none =>
      have hvs : vs = [] := by
        cases vs with
        | nil => rfl
        | cons a as =>
          have hs := argmaxCount_isSome ds a as
          rw [hrec] at hs
          cases hs
      subst hvs
      simp only [argmaxCount, Option.some.injEq, Prod.mk.injEq] at h
      obtain ⟨rfl, rfl⟩ := h
      refine ⟨List.mem_singleton.mpr rfl, rfl, ?_⟩
      intro w hw
      rw [List.mem_singleton.mp hw]
    | some p =>
      obtain ⟨bv2, bc2⟩ := p
      obtain ⟨hmem2, hcnt2, hall2⟩ := ih bv2 bc2 hrec
      simp only [argmaxCount, hrec] at h
      split at h
      · next hcond =>
        simp only [Option.some.injEq, Prod.mk.injEq] at h
        obtain ⟨rfl, rfl⟩ := h
        refine ⟨List.mem_cons_self _ _, rfl, ?_⟩
        intro w hw
        rcases List.mem_cons.mp hw with hw | hw
        · rw [hw]
        · have hle := hall2 w hw
          rcases hcond with hlt | heq
          · omega
          · omega
      · next hcond =>
        simp only [Option.some.injEq, Prod.mk.injEq] at h
        obtain ⟨rfl, rfl⟩ := h
        refine ⟨List.mem_cons_of_mem _ hmem2, hcnt2, ?_⟩
        intro w hw
        rcases List.mem_cons.mp hw with hw | hw
        · subst hw
          push_neg at hcond
          exact hcond.1
        · exact hall2 w hw

/-- Claim C7: for every time array with at least two samples the
function returns `1 / (2 * m)` where `m` is a most frequent value (a
mode) of the consecutive time differences; on a uniformly sampled array
whose differences all equal a spacing `d`, the mode is `d` and the
result is exactly `1 / (2 * d)`. -/
theorem nyquistFrequency_mode_spec (time : List ℚ) (h2 : 2 ≤ time.length) :
    ∃ m, findMostCommonDiff time = some m ∧
      m ∈ diffsOf time ∧
      (∀ v ∈ diffsOf time, (diffsOf time).count v ≤ (diffsOf time).count m) ∧
      nyquistFrequency time = some (1 / (2 * m)) ∧
      ∀ d : ℚ, diffsOf time = List.replicate (time.length - 1) d → m = d := by
  have hlen : (diffsOf time).length = time.length - 1 := by
    simp only [diffsOf, List.length_zipWith, List.length_tail]
    omega
  have hne : diffsOf time ≠ [] := by
    intro h
    rw [h] at hlen
    simp at hlen
    omega
  obtain ⟨v, vs, hdd⟩ : ∃ v vs, (diffsOf time).dedup = v :: vs := by
    cases hd : (diffsOf time).dedup with
    | nil => exact absurd ((List.dedup_eq_nil _).mp hd) hne
    | cons v vs => exact ⟨v, vs, rfl⟩
  have hsome : (argmaxCount (diffsOf time) ((diffsOf time).dedup)).isSome = true := by
    rw [hdd]
    exact argmaxCount_isSome _ _ _
  obtain ⟨p, hb⟩ := Option.isSome_iff_exists.mp hsome
  obtain ⟨bv, bc⟩ := p
  obtain ⟨hmem, hcount, hall⟩ := argmaxCount_spec (diffsOf time) _ bv bc hb
  refine ⟨bv, ?_, ?_, ?_, ?_, ?_⟩
  · unfold findMostCommonDiff
    rw [hb]
    rfl
  · exact List.mem_dedup.mp hmem
  · intro w hw
    have hle := hall w (List.mem_dedup.mpr hw)
    omega
  · unfold nyquistFrequency findMostCommonDiff
    rw [hb]
    rfl
  · intro d hd
    have hbvmem : bv ∈ List.replicate (time.length - 1) d := by
      rw [← hd]
      exact List.mem_dedup.mp hmem
    exact List.eq_of_mem_replicate hbvmem

/-- Witness for the claim C7 theorem: differences `[1, 1, 2]`, mode 1,
Nyquist one half. -/
theorem nyquistFrequency_mode_spec_witness :
    2 ≤ ([0, 1, 2, 4] : List ℚ).length ∧
    (∃ m, findMostCommonDiff [0, 1, 2, 4] = some m ∧
      m ∈ diffsOf [0, 1, 2, 4] ∧
      (∀ v ∈ diffsOf [0, 1, 2, 4],
        (diffsOf [0, 1, 2, 4]).count v ≤ (diffsOf [0, 1, 2, 4]).count m) ∧
      nyquistFrequency [0, 1, 2, 4] = some (1 / (2 * m)) ∧
      ∀ d : ℚ, diffsOf [0, 1, 2, 4] =
        List.replicate (([0, 1, 2, 4] : List ℚ).length - 1) d → m = d) :=
  ⟨by norm_num, nyquistFrequency_mode_spec [0, 1, 2, 4] (by norm_num)⟩
